import Mathlib

/-!
Verification of the epoch-versioned in-memory write layer (hummock memtable
registry and uploader) and the bounded ordered top-N cache of this repository.

Byte strings are modelled as `List Nat` with the lexicographic order (the
Mathlib `LinearOrder (List Nat)` instance), matching the Rust byte-slice
comparison.  Full keys are modelled as a pair of user key and epoch; the
repository only relies on the external key-encoding contract that full keys
sort by user key ascending and then epoch descending.
-/

/-- Byte strings, ordered lexicographically like Rust `&[u8]`. -/
abbrev Bytes := List Nat

/-- Error kinds relevant to the claims: the dedicated memtable channel error,
store / RPC failures, and data-integrity failures (deserialization). -/
inductive HErr
  | memtableError
  | storeError (code : Nat)
  | dataIntegrity
deriving DecidableEq, Repr

/-- The value type of `hummock::value::HummockValue`: a put or a tombstone. -/
inductive HummockValue
  | put (v : Bytes)
  | del
deriving DecidableEq, Repr

/-- Modelled from the spec: full-key encoding (external contract, spec §6):
a full key is `user_key ‖ epoch_be64`; the core relies only on the fact that
full keys sort by user key ascending, then epoch descending, and that
`key::user_key` recovers the user-key part.  We model a full key as the pair
and `user_key` as the first projection. -/
structure FullKey where
  ukey : Bytes
  epoch : Nat
deriving DecidableEq, Repr

/-- Order contract on full keys: user key ascending, epoch descending. -/
def fullKeyLe (a b : FullKey) : Bool :=
  decide (a.ukey < b.ukey) || (decide (a.ukey = b.ukey) && decide (b.epoch ≤ a.epoch))

/-- One entry of a memtable: `type MemtableItem = (Vec<u8>, HummockValue<Vec<u8>>)`
where the byte string is a full key. -/
abbrev MemtableItem := FullKey × HummockValue

/-- `ImmutableMemtable`: an epoch-tagged vector of (full key, value) pairs.
`ImmutableMemtable::new` wraps any vector without validation. -/
structure ImmutableMemtable where
  items : List MemtableItem
  epoch : Nat
deriving DecidableEq, Repr

/-- `ImmutableMemtable::get`: binary search on the user-key projection.  On a
memtable satisfying the sortedness invariant there is at most one entry per
user key, so the binary search is equivalent to finding the first (unique)
item whose user key equals `k`. -/
def ImmutableMemtable.get (m : ImmutableMemtable) (k : Bytes) : Option HummockValue :=
  (m.items.find? (fun it => decide (it.1.ukey = k))).map (·.2)

/-- `ImmutableMemtable::start_user_key` unwraps the first item; registered
memtables are never empty (spec §4.1), so the `[]` default is never hit on the
states the theorems quantify over. -/
def ImmutableMemtable.startUserKey (m : ImmutableMemtable) : Bytes :=
  ((m.items.head?).map (fun it => it.1.ukey)).getD []

/-- `ImmutableMemtable::end_user_key` as an option: the user key of the last
item, `none` on an empty memtable (where the Rust code would panic on
`unwrap`). -/
def ImmutableMemtable.endUserKey? (m : ImmutableMemtable) : Option Bytes :=
  (m.items.getLast?).map (fun it => it.1.ukey)

/-- `ImmutableMemtable::start_key`: full key of the first item (defaulted on
empty, same caveat as `startUserKey`). -/
def ImmutableMemtable.startKey (m : ImmutableMemtable) : FullKey :=
  ((m.items.head?).map (·.1)).getD ⟨[], 0⟩

/-- The per-epoch level of the registry: the `BTreeMap<Vec<u8>, ImmutableMemtable>`
keyed by end user key, modelled as an association list sorted ascending by key. -/
abbrev EpochMap := List (Bytes × ImmutableMemtable)

/-- The registry `BTreeMap<u64, BTreeMap<Vec<u8>, ImmutableMemtable>>`, modelled
as an association list sorted ascending by epoch. -/
abbrev Registry := List (Nat × EpochMap)

/-- Sorted-insert (insert or replace) into the per-epoch map, the model of
`BTreeMap::insert` on the end-user-key level. -/
def emInsert : EpochMap → Bytes → ImmutableMemtable → EpochMap
  | [], k, m => [(k, m)]
  | (k', m') :: rest, k, m =>
    if k < k' then (k, m) :: (k', m') :: rest
    else if k = k' then (k, m) :: rest
    else (k', m') :: emInsert rest k m

/-- The model of `entry(epoch).or_insert(BTreeMap::new()).insert(end_key, m)`:
sorted insert on the epoch level, inserting into (or creating) the epoch's
inner map. -/
def regInsert : Registry → Nat → Bytes → ImmutableMemtable → Registry
  | [], e, k, m => [(e, [(k, m)])]
  | (e', mts) :: rest, e, k, m =>
    if e < e' then (e, [(k, m)]) :: (e', mts) :: rest
    else if e = e' then (e', emInsert mts k m) :: rest
    else (e', mts) :: regInsert rest e k m

/-- One bound of a `RangeBounds<u64>` epoch range. -/
inductive EpochBound
  | unb
  | incl (n : Nat)
  | excl (n : Nat)
deriving DecidableEq, Repr

/-- An epoch range, as passed to `MemtableManager::get`. -/
structure EpochRange where
  lo : EpochBound
  hi : EpochBound
deriving DecidableEq, Repr

/-- Lower-bound test of an epoch bound. -/
def EpochBound.atLeast : EpochBound → Nat → Bool
  | .unb, _ => true
  | .incl n, x => decide (n ≤ x)
  | .excl n, x => decide (n < x)

/-- Upper-bound test of an epoch bound. -/
def EpochBound.atMost : EpochBound → Nat → Bool
  | .unb, _ => true
  | .incl n, x => decide (x ≤ n)
  | .excl n, x => decide (x < n)

/-- Membership of an epoch in an epoch range. -/
def EpochRange.contains (r : EpochRange) (x : Nat) : Bool :=
  r.lo.atLeast x && r.hi.atMost x

/-- The range `..=e`. -/
def upTo (e : Nat) : EpochRange := ⟨.unb, .incl e⟩

/-- The range `..e`. -/
def below (e : Nat) : EpochRange := ⟨.unb, .excl e⟩

/-- The body of `MemtableManager::get` for a single epoch: take the first
entry of `memtables.range(user_key..)` (the first end key `≥ user_key` in the
sorted map); if there is none, or its memtable starts after `user_key`, or the
memtable does not contain `user_key`, the Rust loop `continue`s to the next
epoch, which we model by returning `none`. -/
def epochLookup (mts : EpochMap) (k : Bytes) : Option HummockValue :=
  match mts.find? (fun kv => decide (k ≤ kv.1)) with
  | none => none
  | some (_, m) => if k < m.startUserKey then none else m.get k

/-- `MemtableManager::get`: scan the registry entries whose epoch lies in the
requested range in descending epoch order, returning the first hit. -/
def mgrGet (reg : Registry) (k : Bytes) (r : EpochRange) : Option HummockValue :=
  ((reg.filter (fun ent => r.contains ent.1)).reverse).findSome?
    (fun ent => epochLookup ent.2 k)

/-- The registry part of `MemtableManager::write_batch` (given the already
computed end user key): build the `ImmutableMemtable` and insert it under
`(epoch, end_user_key)`. -/
def writeBatchReg (reg : Registry) (batch : List MemtableItem) (epoch : Nat)
    (endK : Bytes) : Registry :=
  regInsert reg epoch endK ⟨batch, epoch⟩

/-- Outcome of `write_batch`: a panic (from `end_user_key`'s `unwrap` on an
empty batch), or the updated registry together with the channel-send result. -/
inductive WriteBatchResult
  | panik
  | res (reg : Registry) (r : Except HErr Unit)

/-- `MemtableManager::write_batch`: construct the memtable (no validation),
compute its end user key (panics on an empty batch), insert it into the
registry, then send it to the uploader channel; a closed channel surfaces as
`HummockError::memtable_error`. -/
def writeBatch (reg : Registry) (batch : List MemtableItem) (epoch : Nat)
    (channelOpen : Bool) : WriteBatchResult :=
  let m : ImmutableMemtable := ⟨batch, epoch⟩
  match m.endUserKey? with
  | none => .panik
  | some endK =>
    .res (writeBatchReg reg batch epoch endK)
      (if channelOpen then .ok () else .error .memtableError)

/-- `MemtableManager::delete_before`: the code runs
`self.imm_memtables.write().split_off(&(epoch + 1))` and discards the returned
map, so the registry retains exactly the entries with key `< epoch + 1`. -/
def deleteBefore (reg : Registry) (epoch : Nat) : Registry :=
  reg.filter (fun ent => decide (ent.1 < epoch + 1))

/-- SST object metadata as used by the uploader: table id plus the key range
(`SstableInfo { id, key_range: { left, right } }`). -/
structure SstMeta where
  id : Nat
  smallestKey : FullKey
  largestKey : FullKey
deriving DecidableEq, Repr

/-- The part of the `MemtableUploader` state that `sync` reads and writes:
the pending buffer and the maximal epoch seen on enqueued memtables. -/
structure UploaderState where
  memtablesToUpload : List ImmutableMemtable
  maxUploadEpoch : Nat
deriving Repr

/-- Modelled from the spec: the external collaborators of the uploader's sync
steps 3–6 (spec §4.3, §6) — the metadata service's table-id minting together
with the `CapacitySplitTableBuilder` (which consumes the ordered items of the
sorted memtables and emits a sequence of SST triples), the per-SST object
upload `gen_remote_sstable`, and the `add_tables` registration.  Each step may
fail, which is how store errors are injected into `sync`. -/
structure UploadEnv where
  build : List ImmutableMemtable → Except HErr (List SstMeta)
  upload : SstMeta → Except HErr SstMeta
  addTables : Nat → List SstMeta → Except HErr Unit

/-- Upload every finished SST in order, stopping at the first error
(the `for (table_id, blocks, meta) in builder.finish()` loop). -/
def uploadAll (env : UploadEnv) : List SstMeta → Except HErr (List SstMeta)
  | [] => .ok []
  | t :: rest =>
    match env.upload t with
    | .error e => .error e
    | .ok u =>
      match uploadAll env rest with
      | .error e => .error e
      | .ok us => .ok (u :: us)

/-- Insert into a list sorted by `fullKeyLe` on `startKey`. -/
def insertByStartKey (m : ImmutableMemtable) : List ImmutableMemtable → List ImmutableMemtable
  | [] => [m]
  | x :: xs =>
    if fullKeyLe m.startKey x.startKey then m :: x :: xs
    else x :: insertByStartKey m xs

/-- `self.memtables_to_upload.sort_by(|l, r| l.start_key().cmp(r.start_key()))`:
a stable sort by start key, modelled as insertion sort. -/
def sortByStartKey : List ImmutableMemtable → List ImmutableMemtable
  | [] => []
  | x :: xs => insertByStartKey x (sortByStartKey xs)

/-- `MemtableUploader::sync`: return early on an empty buffer; otherwise sort
the buffer, drain it with `std::mem::take` (this happens before any fallible
step), feed the items to the builder, upload the finished SSTs, and register
them via `add_tables` at `max_upload_epoch` unless no SST was produced.  The
compactor poke is a best-effort send with no observable result and is omitted. -/
def uploaderSync (s : UploaderState) (env : UploadEnv) :
    UploaderState × Except HErr Unit :=
  if s.memtablesToUpload.isEmpty then (s, .ok ())
  else
    let sorted := sortByStartKey s.memtablesToUpload
    let s1 : UploaderState := { s with memtablesToUpload := [] }
    match env.build sorted with
    | .error e => (s1, .error e)
    | .ok triples =>
      match uploadAll env triples with
      | .error e => (s1, .error e)
      | .ok tables =>
        if tables.isEmpty then (s1, .ok ())
        else
          match env.addTables s1.maxUploadEpoch tables with
          | .error e => (s1, .error e)
          | .ok _ => (s1, .ok ())

/-- Outcome of the uploader's oneshot acknowledgement as observed by
`MemtableManager::sync`: the sender side may be dropped, or it delivers the
uploader's `HummockResult`. -/
inductive OneshotOutcome
  | dropped
  | delivered (r : Except HErr Unit)

/-- Channel environment of one `MemtableManager::sync` call. -/
structure SyncEnv where
  channelOpen : Bool
  oneshot : OneshotOutcome

/-- Observable outcome of `MemtableManager::sync`: a panic, success, or an
error returned to the caller. -/
inductive SyncOutcome
  | panik
  | ok
  | fail (e : HErr)
deriving DecidableEq, Repr

/-- `MemtableManager::sync`: `self.uploader_tx.send(SYNC(Some(tx))).unwrap()`
panics when the uploader channel is closed; `rx.await.unwrap()` panics when the
oneshot sender is dropped; otherwise the uploader's delivered result is
returned as-is. -/
def mgrSync (env : SyncEnv) : SyncOutcome :=
  if env.channelOpen then
    match env.oneshot with
    | .dropped => .panik
    | .delivered (.ok _) => .ok
    | .delivered (.error e) => .fail e
  else .panik

/-- A logical row, as a list of per-cell byte blobs (`schema.len()` cells). -/
abbrev Row := List Bytes

/-- Modelled from the spec: `FlushStatus` (its source `flush_status.rs` is not
under `src/`; spec §4.5 gives the complete state machine): the per-key pending
write token `Insert(v) | Delete | DeleteInsert(v)`. -/
inductive FlushStatus
  | ins (r : Row)
  | del
  | delIns (r : Row)
deriving DecidableEq, Repr

/-- Modelled from the spec: `FlushStatus::do_insert` folds an insert into the
current entry: absent ↦ Insert, Insert ↦ Insert, Delete ↦ DeleteInsert,
DeleteInsert ↦ DeleteInsert (spec §4.5). -/
def FlushStatus.doInsert : Option FlushStatus → Row → FlushStatus
  | none, v => .ins v
  | some (.ins _), v => .ins v
  | some .del, v => .delIns v
  | some (.delIns _), v => .delIns v

/-- Modelled from the spec: `FlushStatus::do_delete`: every state (including
absent) transitions to Delete (spec §4.5). -/
def FlushStatus.doDelete : Option FlushStatus → FlushStatus
  | _ => .del

/-- Modelled from the spec: `FlushStatus::into_option`: Delete ↦ None,
Insert(v) and DeleteInsert(v) ↦ Some(v) (spec §4.5). -/
def FlushStatus.intoOption : FlushStatus → Option Row
  | .ins r => some r
  | .del => none
  | .delIns r => some r

/-- Lookup in an association-list map (model of `BTreeMap` operations on
byte-string keys). -/
def mapLookup {α : Type} : List (Bytes × α) → Bytes → Option α
  | [], _ => none
  | (k', v) :: rest, k => if k = k' then some v else mapLookup rest k

/-- Sorted insert-or-replace, the model of `BTreeMap::insert`. -/
def mapInsert {α : Type} : List (Bytes × α) → Bytes → α → List (Bytes × α)
  | [], k, v => [(k, v)]
  | (k', v') :: rest, k, v =>
    if k < k' then (k, v) :: (k', v') :: rest
    else if k = k' then (k, v) :: rest
    else (k', v') :: mapInsert rest k v

/-- Removal, the model of `BTreeMap::remove`. -/
def mapRemove {α : Type} : List (Bytes × α) → Bytes → List (Bytes × α)
  | [], _ => []
  | (k', v') :: rest, k => if k = k' then rest else (k', v') :: mapRemove rest k

/-- Modelled from the spec: the external `Row` serializer (spec §4.4 Row
serialization): a row serializes to the concatenation of per-cell byte blobs.
Cells are encoded length-prefixed so that deserialization can split them. -/
def serializeCell (c : Bytes) : Bytes := c.length :: c

/-- Modelled from the spec: `Row::serialize` — the concatenation of the
serialized cells of the row. -/
def serializeRow (r : Row) : Bytes := (r.map serializeCell).flatten

/-- Read one length-prefixed cell blob from the front of a byte string. -/
def readCell : Bytes → Option (Bytes × Bytes)
  | [] => none
  | n :: rest => if rest.length < n then none else some (rest.take n, rest.drop n)

/-- Read `n` cells from the front of a byte string; trailing bytes beyond the
`n` cells are ignored (this matches the repository's round trip, where `flush`
stores the full row bytes under every cell key and the reader consumes exactly
`schema.len()` cells). -/
def readCells : Nat → Bytes → Option (List Bytes)
  | 0, _ => some []
  | n + 1, b => (readCell b).bind (fun cb => (readCells n cb.2).map (fun cs => cb.1 :: cs))

/-- Modelled from the spec: `RowDeserializer::deserialize` — re-assemble
`n = schema.len()` cells in order into a `Row`. -/
def deserializeRow (n : Nat) (b : Bytes) : Option Row := readCells n b

/-- Modelled from the spec: `serialize_cell_idx` — the 4-byte big-endian
encoding of a cell index (spec §6). -/
def cellIdxBytes (i : Nat) : Bytes :=
  [i / 16777216 % 256, i / 65536 % 256, i / 256 % 256, i % 256]

/-- The `StateStore` contents: cell key ↦ cell value bytes, sorted by key.
Keys carry the keyspace prefix. -/
abbrev Store := List (Bytes × Bytes)

/-- Apply one write of an ingest batch: `Some` puts, `None` deletes. -/
def storeApply (st : Store) (w : Bytes × Option Bytes) : Store :=
  match w.2 with
  | some v => mapInsert st w.1 v
  | none => mapRemove st w.1

/-- `StateStore::ingest_batch`: atomic application of all writes in order. -/
def ingestBatch (st : Store) (ws : List (Bytes × Option Bytes)) : Store :=
  ws.foldl storeApply st

/-- `Keyspace::scan_strip_prefix`: all pairs under the keyspace in ascending
key order, with the prefix stripped from the keys, soft-capped by `limit`. -/
def scanStripPrefix (st : Store) (pfx : Bytes) (limit : Option Nat) :
    List (Bytes × Bytes) :=
  let all := st.filterMap
    (fun kv => if pfx.isPrefixOf kv.1 then some (kv.1.drop pfx.length, kv.2) else none)
  match limit with
  | none => all
  | some n => all.take n

/-- `ManagedTopNState`: the cache `top_n`, the dirty set `flush_buffer`, the
authoritative `total_count`, the optional cache cap `top_n_count`, the keyspace
(modelled by its byte prefix) and the schema (only its length and the
deserializer derived from it are observable). -/
structure ManagedTopNState where
  top_n : List (Bytes × Row)
  flush_buffer : List (Bytes × FlushStatus)
  total_count : Nat
  top_n_count : Option Nat
  keyspace : Bytes
  schema_len : Nat
deriving DecidableEq, Repr

/-- Outcome of a fallible `ManagedTopNState` operation: success, a propagated
store/integrity error, or a panic (`unreachable!` / `unwrap` on `None`). -/
inductive Res (α : Type)
  | ok (a : α)
  | err (e : HErr)
  | panik
deriving DecidableEq

/-- `ManagedTopNState::is_dirty`. -/
def ManagedTopNState.is_dirty (s : ManagedTopNState) : Bool :=
  !s.flush_buffer.isEmpty

/-- Fuel-indexed body of the `retain_top_n` while loop; each step pops the
last cached entry while the cache is larger than `n`.  `l.length` steps of
fuel always suffice, so `retainLoop` below is an exact model of the loop. -/
def retainGo : Nat → Nat → List (Bytes × Row) → List (Bytes × Row)
  | 0, _, l => l
  | fuel + 1, n, l => if n < l.length then retainGo fuel n l.dropLast else l

/-- The `while self.top_n.len() > count { self.top_n.pop_last(); }` loop of
`retain_top_n`. -/
def retainLoop (n : Nat) (l : List (Bytes × Row)) : List (Bytes × Row) :=
  retainGo l.length n l

/-- `ManagedTopNState::retain_top_n`: discard largest cached keys until the
cache size is at most `top_n_count` (no-op when unbounded). -/
def ManagedTopNState.retain_top_n (s : ManagedTopNState) : ManagedTopNState :=
  match s.top_n_count with
  | some count => { s with top_n := retainLoop count s.top_n }
  | none => s

/-- `ManagedTopNState::insert`: write to `top_n`, fold into `flush_buffer` via
`FlushStatus::do_insert`, increment `total_count`.  Never evicts. -/
def ManagedTopNState.insert (s : ManagedTopNState) (key : Bytes) (value : Row) :
    ManagedTopNState :=
  { s with
    top_n := mapInsert s.top_n key value
    flush_buffer :=
      mapInsert s.flush_buffer key (FlushStatus.doInsert (mapLookup s.flush_buffer key) value)
    total_count := s.total_count + 1 }

/-- The cell-regrouping loop of `scan_from_storage`: accumulate cell bytes,
and on every `schema.len()`-th cell deserialize the accumulated bytes into a
row keyed by the pk with the trailing 4-byte cell index removed.  A leftover
partial group at the end is dropped (the Rust code only debug-asserts on it). -/
def restoreRows (n : Nat) (acc : Bytes) (cnt : Nat) :
    List (Bytes × Bytes) → Option (List (Bytes × Row))
  | [] => some []
  | (pk, cell) :: rest =>
    let acc2 := acc ++ cell
    let cnt2 := cnt + 1
    if cnt2 = n then
      match deserializeRow n acc2 with
      | none => none
      | some row =>
        (restoreRows n [] 0 rest).map (fun tl => (pk.take (pk.length - 4), row) :: tl)
    else restoreRows n acc2 cnt2 rest

/-- `ManagedTopNState::scan_from_storage`: scan up to
`number_rows * schema.len()` cells under the keyspace and re-assemble rows;
deserialization failure is a data-integrity error. -/
def ManagedTopNState.scan_from_storage (s : ManagedTopNState) (store : Store)
    (number_rows : Option Nat) : Res (List (Bytes × Row)) :=
  let pk_row_bytes :=
    scanStripPrefix store s.keyspace (number_rows.map (fun c => c * s.schema_len))
  match restoreRows s.schema_len [] 0 pk_row_bytes with
  | none => .err .dataIntegrity
  | some res => .ok res

/-- The merge loop of `scan_and_merge`: walk the storage pairs with a peekable
cursor over the flush buffer.  For each storage key: advance the cursor past
all buffer keys `< k_s`; on an exhausted buffer insert the storage pair into
the cache; otherwise compare with the peeked buffer key — `Equal` applies the
buffered status (`Delete` drops the pair, `Insert`/`DeleteInsert` insert the
buffered row), `Greater` advances the cursor, and the remaining `Less` arm is
the `unreachable!()` panic. -/
def samLoop (cache : List (Bytes × Row)) (buf : List (Bytes × FlushStatus)) :
    List (Bytes × Row) → Res (List (Bytes × Row))
  | [] => .ok cache
  | (ks, rs) :: rest =>
    let buf2 := buf.dropWhile (fun kv => decide (kv.1 < ks))
    match buf2 with
    | [] => samLoop (mapInsert cache ks rs) [] rest
    | (kb, vb) :: bufRest =>
      if ks = kb then
        match vb with
        | .del => samLoop cache buf2 rest
        | .ins row => samLoop (mapInsert cache ks row) buf2 rest
        | .delIns row => samLoop (mapInsert cache ks row) buf2 rest
      else if kb < ks then
        samLoop cache bufRest rest
      else
        .panik

/-- `ManagedTopNState::scan_and_merge`: unbounded scan of the keyspace merged
against the pending flush buffer into the cache. -/
def ManagedTopNState.scan_and_merge (s : ManagedTopNState) (store : Store) :
    Res ManagedTopNState :=
  match s.scan_from_storage store none with
  | .err e => .err e
  | .panik => .panik
  | .ok kv_pairs =>
    match samLoop s.top_n s.flush_buffer kv_pairs with
    | .err e => .err e
    | .panik => .panik
    | .ok cache => .ok { s with top_n := cache }

/-- `ManagedTopNState::delete` (internal): remove from the cache, fold a
`Delete` into the flush buffer, decrement `total_count`; if the cache drained
while `total_count > 0`, repopulate it via `scan_and_merge` and re-cap it. -/
def ManagedTopNState.delete (s : ManagedTopNState) (store : Store) (key : Bytes) :
    Res (ManagedTopNState × Option Row) :=
  let prev_entry := mapLookup s.top_n key
  let s1 : ManagedTopNState :=
    { s with
      top_n := mapRemove s.top_n key
      flush_buffer :=
        mapInsert s.flush_buffer key (FlushStatus.doDelete (mapLookup s.flush_buffer key))
      total_count := s.total_count - 1 }
  if s1.top_n.isEmpty && decide (0 < s1.total_count) then
    match s1.scan_and_merge store with
    | .err e => .err e
    | .panik => .panik
    | .ok s2 => .ok (s2.retain_top_n, prev_entry)
  else
    .ok (s1, prev_entry)

/-- `ManagedTopNState::pop_top_element`: `Ok(None)` on an empty state; else
peek the first cached key (`first_key_value().unwrap()` panics on an empty
cache), delete it, and return it with its row (`value.unwrap()`). -/
def ManagedTopNState.pop_top_element (s : ManagedTopNState) (store : Store) :
    Res (ManagedTopNState × Option (Bytes × Row)) :=
  if s.total_count = 0 then .ok (s, none)
  else
    match s.top_n with
    | [] => .panik
    | (key, _) :: _ =>
      match s.delete store key with
      | .err e => .err e
      | .panik => .panik
      | .ok (s1, value) =>
        match value with
        | none => .panik
        | some v => .ok (s1, some (key, v))

/-- The write batch built by `ManagedTopNState::flush`, mirroring the Rust
loops: for each drained `(pk_buf, cells)` of the flush buffer (ascending) and
each `cell_idx in 0..schema.len()`, push
`(prefix ‖ pk_buf ‖ cell_idx_be32, row_option.map(Row::serialize))` — note the
code serializes the whole row once per cell. -/
def ManagedTopNState.flushWrites (s : ManagedTopNState) : List (Bytes × Option Bytes) :=
  s.flush_buffer.foldl
    (fun acc e =>
      let row_option := e.2.intoOption
      (List.range s.schema_len).foldl
        (fun acc2 cell_idx =>
          let key_encoded := e.1 ++ cellIdxBytes cell_idx
          let key_prefixed := s.keyspace ++ key_encoded
          match row_option with
          | some row => acc2 ++ [(key_prefixed, some (serializeRow row))]
          | none => acc2 ++ [(key_prefixed, none)])
        acc)
    []

/-- `ManagedTopNState::flush`: if clean, just `retain_top_n`; else drain the
flush buffer into one `ingest_batch` and then `retain_top_n`.  The store model
is infallible, so no error case arises here. -/
def ManagedTopNState.flush (s : ManagedTopNState) (store : Store) :
    ManagedTopNState × Store :=
  if !s.is_dirty then (s.retain_top_n, store)
  else
    let writes := s.flushWrites
    let s1 : ManagedTopNState := { s with flush_buffer := [] }
    (s1.retain_top_n, ingestBatch store writes)

/-- Modelled from the spec: the write batch that claim C5's wording describes —
for each pending key and cell index, the value is the serialization of the
single cell `row.cell[cell_idx]` rather than of the whole row.  Used only to
compare the spec's description against `flushWrites`. -/
def flushWritesClaimed (s : ManagedTopNState) : List (Bytes × Option Bytes) :=
  s.flush_buffer.flatMap
    (fun e =>
      (List.range s.schema_len).map
        (fun cell_idx =>
          (s.keyspace ++ e.1 ++ cellIdxBytes cell_idx,
           (e.2.intoOption).map (fun row => serializeCell (row.getD cell_idx [])))))

/-- The distinct pk set persisted in the store under a keyspace: the cell keys
with the 4-byte cell index removed, deduplicated. -/
def storePks (store : Store) (pfx : Bytes) : List Bytes :=
  ((scanStripPrefix store pfx none).map (fun kv => kv.1.take (kv.1.length - 4))).dedup

/-- Number of distinct logical rows in cache ∪ persisted (the quantity that
claim C7 says `total_count` tracks). -/
def distinctRowCount (s : ManagedTopNState) (store : Store) : Nat :=
  ((s.top_n.map (·.1)) ++ storePks store s.keyspace).dedup.length

/-- C9: calling `pop_top_element` on a `ManagedTopNState` whose `total_count`
is 0 returns `Ok(None)` and leaves the state (and hence every field)
unchanged — the empty case neither panics nor touches the store. -/
theorem C9_pop_top_element_empty (s : ManagedTopNState) (store : Store)
    (h : s.total_count = 0) :
    s.pop_top_element store = .ok (s, none) := by
  simp [ManagedTopNState.pop_top_element, h]

/-- Concrete instantiation of `C9_pop_top_element_empty` on a dirty state with
`total_count = 0`. -/
def c9State : ManagedTopNState := ⟨[], [([3], FlushStatus.del)], 0, some 2, [9], 2⟩

theorem C9_pop_top_element_empty_witness :
    c9State.total_count = 0 ∧ c9State.pop_top_element [] = .ok (c9State, none) :=
  ⟨rfl, C9_pop_top_element_empty c9State [] rfl⟩

/-- C10: `write_batch` validates nothing — any non-empty vector (sorted or
not, single-epoch or not) is accepted and registered, while an empty batch
makes `end_user_key` unwrap `None` and panic. -/
theorem C10_write_batch_no_validation (reg : Registry) (batch : List MemtableItem)
    (epoch : Nat) (channelOpen : Bool) :
    (batch = [] → writeBatch reg batch epoch channelOpen = .panik) ∧
    (batch ≠ [] → ∃ reg' r, writeBatch reg batch epoch channelOpen = .res reg' r) := by
  constructor
  · intro h
    subst h
    rfl
  · intro h
    have h2 : (batch.getLast?).isSome := by
      rw [List.getLast?_isSome]
      exact h
    obtain ⟨it, hit⟩ := Option.isSome_iff_exists.mp h2
    refine ⟨writeBatchReg reg batch epoch it.1.ukey,
      if channelOpen then .ok () else .error .memtableError, ?_⟩
    simp [writeBatch, ImmutableMemtable.endUserKey?, hit]

/-- Concrete instantiation of `C10_write_batch_no_validation`: the empty batch
panics, and an unsorted two-epoch batch is accepted without any error. -/
theorem C10_write_batch_no_validation_witness :
    writeBatch [] [] 5 true = .panik ∧
    ∃ reg' r,
      writeBatch [] [(⟨[9], 7⟩, HummockValue.put [1]), (⟨[2], 5⟩, HummockValue.del)] 5 true =
        .res reg' r :=
  ⟨(C10_write_batch_no_validation [] [] 5 true).1 rfl,
   (C10_write_batch_no_validation [] [(⟨[9], 7⟩, HummockValue.put [1]), (⟨[2], 5⟩, HummockValue.del)]
      5 true).2 (List.cons_ne_nil _ _)⟩

/-- C6 counterexample: with the uploader channel closed, `sync` panics on the
`send(...).unwrap()` — it does not return an error of any kind, contradicting
the claim that a closed channel surfaces as a `memtable_error`. -/
theorem C6_sync_closed_channel_panics :
    mgrSync ⟨false, .delivered (.ok ())⟩ = .panik ∧
    ∀ e : HErr, mgrSync ⟨false, .delivered (.ok ())⟩ ≠ .fail e := by
  refine ⟨rfl, ?_⟩
  intro e h
  rw [show mgrSync ⟨false, .delivered (.ok ())⟩ = .panik from rfl] at h
  exact SyncOutcome.noConfusion h

/-- C6 amended: `sync` panics exactly when the uploader channel is closed or
the oneshot acknowledgement is dropped (both results are `unwrap`ped), and it
returns an error exactly when the uploader delivers an upload error over the
oneshot channel. -/
theorem C6_sync_outcome_characterization (env : SyncEnv) :
    (mgrSync env = .panik ↔ (env.channelOpen = false ∨ env.oneshot = .dropped)) ∧
    (∀ e, mgrSync env = .fail e ↔
      (env.channelOpen = true ∧ env.oneshot = .delivered (.error e))) := by
  obtain ⟨copen, osh⟩ := env
  cases copen <;> rcases osh with _ | r
  · simp [mgrSync]
  · simp [mgrSync]
  · simp [mgrSync]
  · rcases r with u | e0 <;> simp [mgrSync]

/-- Concrete uploader state with one pending memtable, and an environment in
which the builder phase (steps 3–4) fails with a store error. -/
def c2Memtable : ImmutableMemtable := ⟨[(⟨[1], 3⟩, HummockValue.put [7])], 3⟩

def c2State : UploaderState := ⟨[c2Memtable], 3⟩

def c2FailEnv : UploadEnv :=
  ⟨fun _ => .error (.storeError 0), fun t => .ok t, fun _ _ => .ok ()⟩

/-- C2 counterexample: a sync that fails in step 3/4 nevertheless leaves the
buffer empty (the `std::mem::take` has already drained it), so the buffer is
not "unchanged by the failed sync" and the next SYNC has nothing to retry. -/
theorem C2_failed_sync_buffer_drained :
    (uploaderSync c2State c2FailEnv).2 = .error (.storeError 0) ∧
    (uploaderSync c2State c2FailEnv).1.memtablesToUpload ≠ c2State.memtablesToUpload := by
  refine ⟨rfl, ?_⟩
  decide

/-- C2 amended: `sync` unconditionally leaves `memtables_to_upload` empty —
on entry with an empty buffer it returns early (leaving it empty), and
otherwise `std::mem::take` drains it before any fallible step of 3–6, so an
error in those steps does not restore it and the next SYNC retries nothing. -/
theorem C2_sync_always_drains_buffer (s : UploaderState) (env : UploadEnv) :
    (uploaderSync s env).1.memtablesToUpload = [] := by
  by_cases h : s.memtablesToUpload.isEmpty
  · rw [uploaderSync, if_pos h]
    exact List.isEmpty_iff.mp h
  · simp only [uploaderSync, if_neg h]
    split
    · rfl
    · split
      · rfl
      · split
        · rfl
        · split <;> rfl

/-- Registry with one batch `{[1] ↦ Put [7]}` written at epoch 1. -/
def c1RegLow : Registry := writeBatchReg [] [(⟨[1], 1⟩, HummockValue.put [7])] 1 [1]

/-- Registry with one batch `{[1] ↦ Put [8]}` written at epoch 2. -/
def c1RegHigh : Registry := writeBatchReg [] [(⟨[1], 2⟩, HummockValue.put [8])] 2 [1]

/-- C1: `delete_before` is inverted.  `split_off(&(epoch + 1))` keeps the
entries with epoch `≤ epoch` in the registry and the removed (greater) part is
discarded, so after `delete_before(1)`: an epoch-1 entry survives and
`get(k, ..=1)` still returns its value (the claim says `None`), while an
epoch-2 entry — which the claim says is retained — is deleted and
`get(k, ..=2)` returns `None`. -/
theorem C1_delete_before_inverted :
    deleteBefore c1RegLow 1 = c1RegLow ∧
    mgrGet (deleteBefore c1RegLow 1) [1] (upTo 1) = some (HummockValue.put [7]) ∧
    deleteBefore c1RegHigh 1 = [] ∧
    mgrGet (deleteBefore c1RegHigh 1) [1] (upTo 2) = none := by
  refine ⟨rfl, ?_, rfl, rfl⟩
  rfl

/-- The `retain_top_n` while-loop always leaves at most `n` cached entries. -/
theorem retainGo_length_le (fuel n : Nat) :
    ∀ (l : List (Bytes × Row)), l.length - n ≤ fuel → (retainGo fuel n l).length ≤ n := by
  induction fuel with
  | zero =>
    intro l h
    rw [retainGo]
    omega
  | succ fuel ih =>
    intro l h
    rw [retainGo]
    by_cases hc : n < l.length
    · rw [if_pos hc]
      exact ih l.dropLast (by simp [List.length_dropLast]; omega)
    · rw [if_neg hc]
      omega

theorem retainLoop_length_le (n : Nat) (l : List (Bytes × Row)) :
    (retainLoop n l).length ≤ n :=
  retainGo_length_le l.length n l (by omega)

/-- C8: whenever `top_n_count = Some n`, any call to `flush` — dirty or not —
ends in `retain_top_n`, so afterwards the cache holds at most `n` entries. -/
theorem C8_flush_bounds_cache (s : ManagedTopNState) (store : Store) (n : Nat)
    (h : s.top_n_count = some n) :
    ((s.flush store).1.top_n).length ≤ n := by
  unfold ManagedTopNState.flush
  by_cases hd : !s.is_dirty
  · rw [if_pos hd]
    simp only [ManagedTopNState.retain_top_n, h]
    exact retainLoop_length_le n _
  · rw [if_neg hd]
    simp only [ManagedTopNState.retain_top_n, h]
    exact retainLoop_length_le n _

/-- Concrete instantiation of `C8_flush_bounds_cache`: a clean two-entry cache
capped at 1. -/
def c8State : ManagedTopNState :=
  ⟨[([1], [[5]]), ([2], [[6]])], [], 2, some 1, [9], 1⟩

theorem C8_flush_bounds_cache_witness :
    c8State.top_n_count = some 1 ∧ ((c8State.flush []).1.top_n).length ≤ 1 :=
  ⟨rfl, C8_flush_bounds_cache c8State [] 1 rfl⟩

/-- `retain_top_n` only truncates the cache; every other field is unchanged. -/
theorem retain_top_n_preserves (s : ManagedTopNState) :
    s.retain_top_n.total_count = s.total_count ∧
    s.retain_top_n.flush_buffer = s.flush_buffer := by
  unfold ManagedTopNState.retain_top_n
  split <;> simp

/-- `scan_and_merge` only rewrites the cache; on success every other field is
unchanged. -/
theorem scan_and_merge_preserves (s : ManagedTopNState) (store : Store)
    (s2 : ManagedTopNState) (h : s.scan_and_merge store = .ok s2) :
    s2.total_count = s.total_count ∧ s2.flush_buffer = s.flush_buffer := by
  unfold ManagedTopNState.scan_and_merge at h
  split at h
  · exact Res.noConfusion h
  · exact Res.noConfusion h
  · split at h
    · exact Res.noConfusion h
    · exact Res.noConfusion h
    · cases h
      simp

/-- A successful internal `delete` decrements `total_count` by exactly one. -/
theorem delete_total_count (s : ManagedTopNState) (store : Store) (key : Bytes)
    (s' : ManagedTopNState) (x : Option Row)
    (h : s.delete store key = .ok (s', x)) :
    s'.total_count = s.total_count - 1 := by
  simp only [ManagedTopNState.delete] at h
  split at h
  · rename_i hcond
    split at h
    · exact Res.noConfusion h
    · exact Res.noConfusion h
    · rename_i s2 hscan
      cases h
      have h1 := (retain_top_n_preserves s2).1
      have h2 := (scan_and_merge_preserves _ store s2 hscan).1
      simp at h2
      omega
  · cases h
    rfl

/-- C7 amended: `insert` increments `total_count` unconditionally (even when
the key is already cached or persisted), and a successful `pop_top_element` on
a non-empty state decrements it by one.  `total_count` therefore counts
inserts minus deletes, which equals the number of distinct rows only as long
as the caller never inserts a key that is already present. -/
theorem C7_total_count_updates :
    (∀ (s : ManagedTopNState) (k : Bytes) (v : Row),
      (s.insert k v).total_count = s.total_count + 1) ∧
    (∀ (s : ManagedTopNState) (store : Store) (s' : ManagedTopNState)
      (x : Option (Bytes × Row)),
      0 < s.total_count → s.pop_top_element store = .ok (s', x) →
      s'.total_count = s.total_count - 1) := by
  constructor
  · intro s k v
    rfl
  · intro s store s' x hpos h
    unfold ManagedTopNState.pop_top_element at h
    rw [if_neg (by omega)] at h
    split at h
    · exact Res.noConfusion h
    · rename_i key rw0 tl
      split at h
      · exact Res.noConfusion h
      · exact Res.noConfusion h
      · rename_i s1 value hdel
        split at h
        · exact Res.noConfusion h
        · rename_i v0
          cases h
          exact delete_total_count s store _ s' (some v0) hdel

/-- Fresh empty top-N state used by the C7 counterexample and witness. -/
def c7Empty : ManagedTopNState := ⟨[], [], 0, some 2, [9], 1⟩

/-- The same key inserted twice in a row. -/
def c7Dup : ManagedTopNState := (c7Empty.insert [1] [[5]]).insert [1] [[6]]

/-- C7 counterexample: inserting a key that is already present in the cache
still increments `total_count`, so `total_count = 2` while cache ∪ persisted
holds a single distinct row — the claim's "does not make total_count exceed
the number of distinct keys" is false. -/
theorem C7_duplicate_insert_overcounts :
    c7Dup.total_count = 2 ∧ distinctRowCount c7Dup [] = 1 := by
  decide

/-- One-row state for instantiating the pop half of `C7_total_count_updates`. -/
def c7One : ManagedTopNState := ⟨[([1], [[5]])], [], 1, some 2, [9], 1⟩

/-- The state after popping the single row of `c7One`. -/
def c7Popped : ManagedTopNState := ⟨[], [([1], FlushStatus.del)], 0, some 2, [9], 1⟩

theorem C7_total_count_updates_witness :
    (c7Empty.insert [1] [[5]]).total_count = c7Empty.total_count + 1 ∧
    0 < c7One.total_count ∧
    c7Popped.total_count = c7One.total_count - 1 :=
  ⟨C7_total_count_updates.1 c7Empty [1] [[5]], by decide,
   C7_total_count_updates.2 c7One [] c7Popped (some ([1], [[5]])) (by decide) (by decide)⟩

/-- Folding pushes of single elements equals appending the mapped list. -/
theorem foldl_push_eq_map {α β : Type} (f : α → β) :
    ∀ (l : List α) (acc : List β),
      l.foldl (fun a x => a ++ [f x]) acc = acc ++ l.map f := by
  intro l
  induction l with
  | nil => simp
  | cons x xs ih =>
    intro acc
    simp [ih, List.append_assoc]

/-- The write batch built by `flush` is, entry by entry, the concatenation
over the (ascending) flush buffer of one write per cell index, whose value is
the whole row's serialization (or a tombstone). -/
theorem flushWrites_eq (s : ManagedTopNState) :
    s.flushWrites = s.flush_buffer.flatMap (fun e =>
      (List.range s.schema_len).map (fun cell_idx =>
        (s.keyspace ++ (e.1 ++ cellIdxBytes cell_idx),
         (e.2.intoOption).map serializeRow))) := by
  unfold ManagedTopNState.flushWrites
  have main : ∀ (buf : List (Bytes × FlushStatus)) (acc : List (Bytes × Option Bytes)),
      buf.foldl
        (fun acc e =>
          let row_option := e.2.intoOption
          (List.range s.schema_len).foldl
            (fun acc2 cell_idx =>
              let key_encoded := e.1 ++ cellIdxBytes cell_idx
              let key_prefixed := s.keyspace ++ key_encoded
              match row_option with
              | some row => acc2 ++ [(key_prefixed, some (serializeRow row))]
              | none => acc2 ++ [(key_prefixed, none)])
            acc)
        acc =
      acc ++ buf.flatMap (fun e =>
        (List.range s.schema_len).map (fun cell_idx =>
          (s.keyspace ++ (e.1 ++ cellIdxBytes cell_idx),
           (e.2.intoOption).map serializeRow))) := by
    intro buf
    induction buf with
    | nil => simp
    | cons e rest ih =>
      intro acc
      have hblock :
          (List.range s.schema_len).foldl
            (fun acc2 cell_idx =>
              let key_encoded := e.1 ++ cellIdxBytes cell_idx
              let key_prefixed := s.keyspace ++ key_encoded
              match e.2.intoOption with
              | some row => acc2 ++ [(key_prefixed, some (serializeRow row))]
              | none => acc2 ++ [(key_prefixed, none)])
            acc =
          acc ++ (List.range s.schema_len).map (fun cell_idx =>
            (s.keyspace ++ (e.1 ++ cellIdxBytes cell_idx),
             (e.2.intoOption).map serializeRow)) := by
        cases hro : e.2.intoOption with
        | none =>
          have hp := foldl_push_eq_map
            (fun cell_idx => (s.keyspace ++ (e.1 ++ cellIdxBytes cell_idx),
              (none : Option Bytes))) (List.range s.schema_len) acc
          simpa using hp
        | some row =>
          have hp := foldl_push_eq_map
            (fun cell_idx => (s.keyspace ++ (e.1 ++ cellIdxBytes cell_idx),
              some (serializeRow row))) (List.range s.schema_len) acc
          simpa using hp
      rw [List.foldl_cons]
      have hstep := ih ((List.range s.schema_len).foldl
        (fun acc2 cell_idx =>
          let key_encoded := e.1 ++ cellIdxBytes cell_idx
          let key_prefixed := s.keyspace ++ key_encoded
          match e.2.intoOption with
          | some row => acc2 ++ [(key_prefixed, some (serializeRow row))]
          | none => acc2 ++ [(key_prefixed, none)])
        acc)
      simp only [] at hstep ⊢
      rw [hstep, hblock]
      simp [List.append_assoc]
  have hm := main s.flush_buffer []
  simpa using hm

/-- C5 amended: on a dirty state, `flush` drains `flush_buffer`, re-caps the
cache, and submits one batched ingest whose writes are, for each pending key
`pk` (ascending) and each `cell_idx ∈ 0..schema.len()`, the store key
`prefixed(pk ‖ be32(cell_idx))` with value `Some(serialize(row))` — the whole
row serialized once and repeated for every cell index — for Insert /
DeleteInsert, and `None` for Delete. -/
theorem C5_flush_batch_shape (s : ManagedTopNState) (store : Store)
    (h : s.is_dirty = true) :
    s.flush store =
      (({ s with flush_buffer := [] } : ManagedTopNState).retain_top_n,
       ingestBatch store
         (s.flush_buffer.flatMap (fun e =>
           (List.range s.schema_len).map (fun cell_idx =>
             (s.keyspace ++ (e.1 ++ cellIdxBytes cell_idx),
              (e.2.intoOption).map serializeRow))))) := by
  rw [← flushWrites_eq]
  unfold ManagedTopNState.flush
  rw [if_neg (by simp [h])]

/-- Concrete dirty state with a two-column schema: one pending
`Insert [[10],[20]])` under key `[1]`, keyspace prefix `[9]`. -/
def c5State : ManagedTopNState :=
  ⟨[([1], [[10], [20]])], [([1], FlushStatus.ins [[10], [20]])], 1, none, [9], 2⟩

/-- C5 counterexample: the flush batch stores the whole row's bytes
(`serialize(row) = [1,10,1,20]`) under **both** cell keys; the claim's
per-cell serialization (`serialize(row.cell[idx])`) would store `[1,10]` and
`[1,20]`.  The two batches differ at every value. -/
theorem C5_row_not_cell_serialized :
    c5State.flushWrites =
      [([9, 1, 0, 0, 0, 0], some [1, 10, 1, 20]),
       ([9, 1, 0, 0, 0, 1], some [1, 10, 1, 20])] ∧
    flushWritesClaimed c5State =
      [([9, 1, 0, 0, 0, 0], some [1, 10]),
       ([9, 1, 0, 0, 0, 1], some [1, 20])] ∧
    c5State.flushWrites ≠ flushWritesClaimed c5State := by
  refine ⟨by decide, by decide, by decide⟩

theorem C5_flush_batch_shape_witness :
    c5State.is_dirty = true ∧
    c5State.flush [] =
      (({ c5State with flush_buffer := [] } : ManagedTopNState).retain_top_n,
       ingestBatch []
         (c5State.flush_buffer.flatMap (fun e =>
           (List.range c5State.schema_len).map (fun cell_idx =>
             (c5State.keyspace ++ (e.1 ++ cellIdxBytes cell_idx),
              (e.2.intoOption).map serializeRow))))) :=
  ⟨rfl, C5_flush_batch_shape c5State [] rfl⟩

/-- Two consecutive `pop_top_element` calls against the same store, stopping
at the first error or panic — a legal operation sequence driver. -/
def popTwice (s : ManagedTopNState) (store : Store) :
    Res (ManagedTopNState × Option (Bytes × Row)) :=
  match s.pop_top_element store with
  | .ok (s1, _) => s1.pop_top_element store
  | .err e => .err e
  | .panik => .panik

/-- Fresh state for the C3 run: two-column schema, cache capped at 1,
keyspace prefix `[9]`. -/
def c3Init : ManagedTopNState := ⟨[], [], 0, some 1, [9], 2⟩

/-- Insert rows under keys `[1]` and `[4]`, then flush (persisting both and
capping the cache to `{[1]}`). -/
def c3Flushed : ManagedTopNState × Store :=
  ((c3Init.insert [1] [[10], [20]]).insert [4] [[11], [21]]).flush []

/-- Insert a third row under key `[5]` after the flush: the cache is
`{[1], [5]}`, the flush buffer `{[5] ↦ Insert}`, and `[4]` lives only in
storage. -/
def c3State : ManagedTopNState := c3Flushed.1.insert [5] [[12], [22]]

/-- C3: the `unreachable!()` in the `Less` arm of `scan_and_merge` IS
reachable by a legal insert/flush/pop sequence.  Popping `[1]` and then `[5]`
drains the cache while `total_count = 1`, so the pop triggers
`scan_and_merge`; the storage scan yields keys `[1]` (matched by the buffered
tombstone) and `[4]`, but the buffer cursor then peeks `[5] > [4]`, taking the
`Ordering::Less` arm — the code panics. -/
theorem C3_unreachable_arm_reached :
    popTwice c3State c3Flushed.2 = .panik := by
  decide

/-- The registry invariant maintained by `BTreeMap`: epochs strictly
ascending. -/
def RegSorted (reg : Registry) : Prop :=
  reg.Pairwise (fun a b => a.1 < b.1)

/-- The `ImmutableMemtable` invariant (spec §3): non-empty, and items
strictly ascending by full key — all items share one epoch, so the user keys
are strictly ascending. -/
def MtWF (m : ImmutableMemtable) : Prop :=
  m.items ≠ [] ∧ m.items.Pairwise (fun a b => a.1.ukey < b.1.ukey)

/-- Total version of `end_user_key` (the default is irrelevant on the
non-empty memtables the theorems quantify over). -/
def ImmutableMemtable.endUserKey (m : ImmutableMemtable) : Bytes :=
  (m.endUserKey?).getD []

/-- Invariant of one epoch's registry level: keys strictly ascending, every
memtable well-formed and keyed by its own end user key. -/
def EmWF (mts : EpochMap) : Prop :=
  mts.Pairwise (fun a b => a.1 < b.1) ∧
  ∀ kv ∈ mts, MtWF kv.2 ∧ kv.1 = kv.2.endUserKey

/-- The "non-overlapping within one epoch" precondition (spec §3, §8.3): the
user-key range of `m` is disjoint from the range of every memtable already
registered at that epoch. -/
def DisjointFromEpoch (m : ImmutableMemtable) (mts : EpochMap) : Prop :=
  ∀ kv ∈ mts, m.endUserKey < kv.2.startUserKey ∨ kv.2.endUserKey < m.startUserKey

/-- The epoch-level lookup of the registry (empty map when the epoch is
absent). -/
def regGet (reg : Registry) (e : Nat) : EpochMap :=
  ((reg.find? (fun ent => decide (ent.1 = e))).map (·.2)).getD []

/-- Well-formed batch (caller obligation, spec §3): non-empty and strictly
ascending by user key. -/
def BatchWF (batch : List MemtableItem) : Prop :=
  batch ≠ [] ∧ batch.Pairwise (fun a b => a.1.ukey < b.1.ukey)

/-- The value a batch assigns to a user key. -/
def batchGet (batch : List MemtableItem) (k : Bytes) : Option HummockValue :=
  (batch.find? (fun it => decide (it.1.ukey = k))).map (·.2)

/-- In a strictly sorted item list the head's user key is minimal. -/
theorem sorted_head_min {l : List MemtableItem}
    (hs : l.Pairwise (fun a b => a.1.ukey < b.1.ukey)) {it : MemtableItem}
    (hit : it ∈ l) : ∀ hd ∈ l.head?, hd.1.ukey ≤ it.1.ukey := by
  cases l with
  | nil => cases hit
  | cons a t =>
    intro hd hhd
    simp at hhd
    subst hhd
    rcases List.mem_cons.mp hit with rfl | hmem
    · exact le_refl _
    · exact le_of_lt ((List.pairwise_cons.mp hs).1 it hmem)

/-- In a strictly sorted item list the last element's user key is maximal. -/
theorem sorted_last_max {l : List MemtableItem}
    (hs : l.Pairwise (fun a b => a.1.ukey < b.1.ukey)) {it : MemtableItem}
    (hit : it ∈ l) : ∀ z ∈ l.getLast?, it.1.ukey ≤ z.1.ukey := by
  induction l with
  | nil => cases hit
  | cons a t ih =>
    intro z hz
    cases t with
    | nil =>
      simp at hz hit
      subst hz
      subst hit
      exact le_refl _
    | cons b t' =>
      rw [List.getLast?_cons_cons] at hz
      have hz_mem : z ∈ b :: t' := by
        obtain ⟨hne, rfl⟩ := List.mem_getLast?_eq_getLast hz
        exact List.getLast_mem hne
      rcases List.mem_cons.mp hit with rfl | hmem
      · exact le_of_lt ((List.pairwise_cons.mp hs).1 z hz_mem)
      · exact ih (List.pairwise_cons.mp hs).2 hmem z hz

/-- Every item of a well-formed memtable lies between `start_user_key` and
`end_user_key`. -/
theorem mt_mem_bounds (m : ImmutableMemtable) (hwf : MtWF m) {it : MemtableItem}
    (hit : it ∈ m.items) :
    m.startUserKey ≤ it.1.ukey ∧ it.1.ukey ≤ m.endUserKey := by
  obtain ⟨hne, hs⟩ := hwf
  constructor
  · cases hl : m.items with
    | nil => rw [hl] at hit; cases hit
    | cons a t =>
      have := sorted_head_min (hl ▸ hs) (hl ▸ hit) a (by simp)
      simpa [ImmutableMemtable.startUserKey, hl] using this
  · cases hlast : m.items.getLast? with
    | none => exact absurd (List.getLast?_eq_none_iff.mp hlast) hne
    | some z =>
      have := sorted_last_max hs hit z hlast
      simpa [ImmutableMemtable.endUserKey, ImmutableMemtable.endUserKey?, hlast] using this

/-- A well-formed memtable's range is non-degenerate. -/
theorem mt_start_le_end (m : ImmutableMemtable) (hwf : MtWF m) :
    m.startUserKey ≤ m.endUserKey := by
  obtain ⟨hne, hs⟩ := hwf
  cases hl : m.items with
  | nil => exact absurd hl hne
  | cons a t =>
    have hmem : a ∈ m.items := by rw [hl]; simp
    exact le_trans (le_of_eq (by simp [ImmutableMemtable.startUserKey, hl]))
      (mt_mem_bounds m ⟨hne, hs⟩ hmem).2

/-- The inserted pair is a member of `emInsert`. -/
theorem emInsert_self_mem (mts : EpochMap) (k : Bytes) (m : ImmutableMemtable) :
    (k, m) ∈ emInsert mts k m := by
  induction mts with
  | nil => simp [emInsert]
  | cons a rest ih =>
    rw [emInsert]
    by_cases h1 : k < a.1
    · simp [h1]
    · rw [if_neg h1]
      by_cases h2 : k = a.1
      · simp [h2]
      · rw [if_neg h2]
        exact List.mem_cons_of_mem a ih

/-- On a sorted map, every member of `emInsert mts k m` is either the
inserted pair or an old entry whose key differs from `k`. -/
theorem emInsert_mem_ne (mts : EpochMap) (k : Bytes) (m : ImmutableMemtable)
    (hs : mts.Pairwise (fun a b => a.1 < b.1)) :
    ∀ kv ∈ emInsert mts k m, kv = (k, m) ∨ (kv ∈ mts ∧ kv.1 ≠ k) := by
  induction mts with
  | nil =>
    intro kv hkv
    simp [emInsert] at hkv
    exact Or.inl hkv
  | cons a rest ih =>
    intro kv hkv
    rw [emInsert] at hkv
    by_cases h1 : k < a.1
    · rw [if_pos h1] at hkv
      rcases List.mem_cons.mp hkv with rfl | hkv2
      · exact Or.inl rfl
      · refine Or.inr ⟨hkv2, ?_⟩
        rcases List.mem_cons.mp hkv2 with rfl | hkv3
        · exact ne_of_gt h1
        · have := (List.pairwise_cons.mp hs).1 kv hkv3
          exact ne_of_gt (lt_trans h1 this)
    · rw [if_neg h1] at hkv
      by_cases h2 : k = a.1
      · rw [if_pos h2] at hkv
        rcases List.mem_cons.mp hkv with rfl | hkv2
        · exact Or.inl rfl
        · refine Or.inr ⟨List.mem_cons_of_mem a hkv2, ?_⟩
          have := (List.pairwise_cons.mp hs).1 kv hkv2
          rw [← h2] at this
          exact ne_of_gt this
      · rw [if_neg h2] at hkv
        rcases List.mem_cons.mp hkv with rfl | hkv2
        · exact Or.inr ⟨List.mem_cons_self _ _, fun hkk => h2 hkk.symm⟩
        · rcases ih (List.pairwise_cons.mp hs).2 kv hkv2 with h | ⟨hm, hne⟩
          · exact Or.inl h
          · exact Or.inr ⟨List.mem_cons_of_mem a hm, hne⟩

/-- `emInsert` preserves strict key sortedness. -/
theorem emInsert_sorted (mts : EpochMap) (k : Bytes) (m : ImmutableMemtable)
    (hs : mts.Pairwise (fun a b => a.1 < b.1)) :
    (emInsert mts k m).Pairwise (fun a b => a.1 < b.1) := by
  induction mts with
  | nil => simp [emInsert]
  | cons a rest ih =>
    obtain ⟨ha, hrest⟩ := List.pairwise_cons.mp hs
    rw [emInsert]
    by_cases h1 : k < a.1
    · rw [if_pos h1]
      refine List.pairwise_cons.mpr ⟨?_, hs⟩
      intro x hx
      rcases List.mem_cons.mp hx with rfl | hx2
      · exact h1
      · exact lt_trans h1 (ha x hx2)
    · rw [if_neg h1]
      by_cases h2 : k = a.1
      · rw [if_pos h2]
        refine List.pairwise_cons.mpr ⟨?_, hrest⟩
        intro x hx
        rw [h2]
        exact ha x hx
      · rw [if_neg h2]
        refine List.pairwise_cons.mpr ⟨?_, ih hrest⟩
        intro x hx
        rcases emInsert_mem_ne rest k m hrest x hx with rfl | ⟨hm, _⟩
        · rcases lt_trichotomy k a.1 with h | h | h
          · exact absurd h h1
          · exact absurd h h2
          · exact h
        · exact ha x hm

/-- On a sorted map, `find?` with predicate `k ≤ key` returns the entry whose
key is the least key `≥ k`. -/
theorem find?_first_ge (l : EpochMap) (k target : Bytes) (m : ImmutableMemtable)
    (hs : l.Pairwise (fun a b => a.1 < b.1))
    (hmem : (target, m) ∈ l)
    (hk : k ≤ target)
    (hmin : ∀ kv ∈ l, k ≤ kv.1 → target ≤ kv.1) :
    l.find? (fun kv => decide (k ≤ kv.1)) = some (target, m) := by
  induction l with
  | nil => cases hmem
  | cons a t ih =>
    by_cases hka : k ≤ a.1
    · rw [List.find?_cons_of_pos _ (by simpa using hka)]
      have hta : target ≤ a.1 := hmin a (List.mem_cons_self _ _) hka
      rcases List.mem_cons.mp hmem with heq | hmem'
      · rw [heq]
      · have hlt := (List.pairwise_cons.mp hs).1 (target, m) hmem'
        exact absurd hta (not_le_of_lt hlt)
    · rw [List.find?_cons_of_neg _ (by simpa using hka)]
      refine ih (List.pairwise_cons.mp hs).2 ?_ ?_
      · rcases List.mem_cons.mp hmem with heq | hmem'
        · exfalso
          apply hka
          rw [show a = (target, m) from heq.symm]
          exact hk
        · exact hmem'
      · intro kv hkv hkkv
        exact hmin kv (List.mem_cons_of_mem a hkv) hkkv

/-- Key epoch-level fact: inserting a well-formed memtable `m` under its end
user key into a well-formed epoch map whose memtables are range-disjoint from
`m` makes the single-epoch lookup return exactly `m.get k` for every key `k`
that `m` contains. -/
theorem epochLookup_emInsert (mts : EpochMap) (m : ImmutableMemtable)
    (k endK : Bytes) (v : HummockValue)
    (hwfm : MtWF m) (hend : m.endUserKey? = some endK)
    (hwf : EmWF mts) (hd : DisjointFromEpoch m mts)
    (hget : m.get k = some v) :
    epochLookup (emInsert mts endK m) k = some v := by
  have hendK : m.endUserKey = endK := by
    simp [ImmutableMemtable.endUserKey, hend]
  obtain ⟨it, hfind, hval⟩ : ∃ it, m.items.find? (fun it => decide (it.1.ukey = k)) = some it ∧
      it.2 = v := by
    unfold ImmutableMemtable.get at hget
    cases hf : m.items.find? (fun it => decide (it.1.ukey = k)) with
    | none => rw [hf] at hget; simp at hget
    | some it => rw [hf] at hget; simp at hget; exact ⟨it, rfl, hget⟩
  have hitk : it.1.ukey = k := by simpa using List.find?_some hfind
  have hitmem : it ∈ m.items := List.mem_of_find?_eq_some hfind
  have hbounds := mt_mem_bounds m hwfm hitmem
  have hks : m.startUserKey ≤ k := hitk ▸ hbounds.1
  have hke : k ≤ endK := by rw [← hendK, ← hitk]; exact hbounds.2
  have hmin : ∀ kv ∈ emInsert mts endK m, k ≤ kv.1 → endK ≤ kv.1 := by
    intro kv hkv hkkv
    rcases emInsert_mem_ne mts endK m hwf.1 kv hkv with rfl | ⟨hm, hne⟩
    · exact le_refl _
    · obtain ⟨hkvwf, hkveq⟩ := hwf.2 kv hm
      rcases hd kv hm with hcase | hcase
      · have hlt : endK < kv.1 := by
          rw [hkveq]
          exact lt_of_lt_of_le (hendK ▸ hcase) (mt_start_le_end kv.2 hkvwf)
        exact le_of_lt hlt
      · exfalso
        have h1 : kv.1 < m.startUserKey := hkveq ▸ hcase
        exact absurd hkkv (not_le_of_lt (lt_of_lt_of_le h1 hks))
  have hfge := find?_first_ge (emInsert mts endK m) k endK m
    (emInsert_sorted mts endK m hwf.1) (emInsert_self_mem mts endK m) hke hmin
  unfold epochLookup
  rw [hfge]
  show (if k < m.startUserKey then none else m.get k) = some v
  rw [if_neg (not_lt_of_le hks)]
  exact hget

/-- Members of `regInsert` are the new epoch's entry or old entries. -/
theorem regInsert_mem (reg : Registry) (e : Nat) (k : Bytes) (m : ImmutableMemtable) :
    ∀ ent ∈ regInsert reg e k m, ent.1 = e ∨ ent ∈ reg := by
  induction reg with
  | nil =>
    intro ent hent
    simp [regInsert] at hent
    exact Or.inl (by rw [hent])
  | cons a rest ih =>
    intro ent hent
    rw [regInsert] at hent
    by_cases h1 : e < a.1
    · rw [if_pos h1] at hent
      rcases List.mem_cons.mp hent with rfl | h
      · exact Or.inl rfl
      · exact Or.inr h
    · rw [if_neg h1] at hent
      by_cases h2 : e = a.1
      · rw [if_pos h2] at hent
        rcases List.mem_cons.mp hent with rfl | h
        · exact Or.inl h2.symm
        · exact Or.inr (List.mem_cons_of_mem a h)
      · rw [if_neg h2] at hent
        rcases List.mem_cons.mp hent with rfl | h
        · exact Or.inr (List.mem_cons_self _ _)
        · rcases ih ent h with he | hm
          · exact Or.inl he
          · exact Or.inr (List.mem_cons_of_mem a hm)

/-- `regInsert` preserves the strict epoch ordering of the registry. -/
theorem regInsert_sorted (reg : Registry) (e : Nat) (k : Bytes)
    (m : ImmutableMemtable) (hs : RegSorted reg) :
    RegSorted (regInsert reg e k m) := by
  induction reg with
  | nil => simp [regInsert, RegSorted]
  | cons a rest ih =>
    obtain ⟨ha, hrest⟩ := List.pairwise_cons.mp hs
    rw [regInsert]
    by_cases h1 : e < a.1
    · rw [if_pos h1]
      refine List.pairwise_cons.mpr ⟨?_, hs⟩
      intro x hx
      rcases List.mem_cons.mp hx with rfl | hx2
      · exact h1
      · exact lt_trans h1 (ha x hx2)
    · rw [if_neg h1]
      by_cases h2 : e = a.1
      · rw [if_pos h2]
        exact List.pairwise_cons.mpr ⟨ha, hrest⟩
      · rw [if_neg h2]
        refine List.pairwise_cons.mpr ⟨?_, ih hrest⟩
        intro x hx
        rcases regInsert_mem rest e k m x hx with he | hm
        · omega
        · exact ha x hm

/-- After `regInsert`, the registry holds the epoch's map with the new
memtable inserted. -/
theorem regInsert_mem_epoch (reg : Registry) (e : Nat) (k : Bytes)
    (m : ImmutableMemtable) (hs : RegSorted reg) :
    (e, emInsert (regGet reg e) k m) ∈ regInsert reg e k m := by
  induction reg with
  | nil => simp [regInsert, regGet, emInsert]
  | cons a rest ih =>
    obtain ⟨ha, hrest⟩ := List.pairwise_cons.mp hs
    rw [regInsert]
    by_cases h1 : e < a.1
    · rw [if_pos h1]
      have hget : regGet (a :: rest) e = [] := by
        unfold regGet
        rw [List.find?_cons_of_neg _ (by simp; omega)]
        rw [List.find?_eq_none.mpr ?_]
        · rfl
        · intro x hx
          have := ha x hx
          simp
          omega
      rw [hget]
      exact List.mem_cons_self _ _
    · rw [if_neg h1]
      by_cases h2 : e = a.1
      · rw [if_pos h2]
        have hget : regGet (a :: rest) e = a.2 := by
          unfold regGet
          rw [List.find?_cons_of_pos _ (by simp [h2])]
          rfl
        rw [hget, h2]
        exact List.mem_cons_self _ _
      · rw [if_neg h2]
        have hget : regGet (a :: rest) e = regGet rest e := by
          unfold regGet
          rw [List.find?_cons_of_neg _ (by simp; omega)]
        rw [hget]
        exact List.mem_cons_of_mem a (ih hrest)

/-- In a sorted registry, the entry at epoch `e` is the head of the reversed
`..=e` filtered list: the newest epoch `≤ e` is `e` itself when present. -/
theorem filter_upTo_reverse_head (reg : Registry) (e : Nat) (mts : EpochMap)
    (hs : RegSorted reg) (hmem : (e, mts) ∈ reg) :
    ∃ rest, (reg.filter (fun ent => (upTo e).contains ent.1)).reverse =
      (e, mts) :: rest := by
  induction reg with
  | nil => cases hmem
  | cons a t ih =>
    obtain ⟨ha, ht⟩ := List.pairwise_cons.mp hs
    rcases List.mem_cons.mp hmem with heq | hmem'
    · subst heq
      have hft : t.filter (fun ent => (upTo e).contains ent.1) = [] := by
        rw [List.filter_eq_nil_iff]
        intro x hx
        have := ha x hx
        simp only at this
        simp [upTo, EpochRange.contains, EpochBound.atLeast, EpochBound.atMost]
        omega
      rw [List.filter_cons, if_pos (by
        simp [upTo, EpochRange.contains, EpochBound.atLeast, EpochBound.atMost])]
      rw [hft]
      exact ⟨[], rfl⟩
    · obtain ⟨rest, hr⟩ := ih ht hmem'
      rw [List.filter_cons]
      by_cases hp : (upTo e).contains a.1 = true
      · rw [if_pos hp, List.reverse_cons, hr]
        exact ⟨rest ++ [a], rfl⟩
      · rw [if_neg hp]
        exact ⟨rest, hr⟩

/-- If the registry holds `(e, mts)` and `mts` resolves `k`, then
`get(k, ..=e)` returns that answer: the per-epoch scan starts at `e`. -/
theorem mgrGet_upTo_eq (reg : Registry) (e : Nat) (mts : EpochMap) (k : Bytes)
    (v : HummockValue) (hs : RegSorted reg) (hmem : (e, mts) ∈ reg)
    (hl : epochLookup mts k = some v) :
    mgrGet reg k (upTo e) = some v := by
  obtain ⟨rest, hrev⟩ := filter_upTo_reverse_head reg e mts hs hmem
  unfold mgrGet
  rw [hrev, List.findSome?_cons]
  simp [hl]

/-- Filtering by a predicate that rejects the inserted epoch ignores the
insertion: `regInsert` touches only the epoch-`e` entry. -/
theorem regInsert_filter_not (p : Nat → Bool) (reg : Registry) (e : Nat)
    (k : Bytes) (m : ImmutableMemtable) (hp : p e = false) :
    (regInsert reg e k m).filter (fun ent => p ent.1) =
      reg.filter (fun ent => p ent.1) := by
  induction reg with
  | nil => simp [regInsert, List.filter_cons, hp]
  | cons a rest ih =>
    rw [regInsert]
    by_cases h1 : e < a.1
    · rw [if_pos h1, List.filter_cons]
      simp [hp]
    · rw [if_neg h1]
      by_cases h2 : e = a.1
      · rw [if_pos h2, List.filter_cons, List.filter_cons]
        have hpa : p a.1 = false := h2 ▸ hp
        simp [hpa]
      · rw [if_neg h2, List.filter_cons, List.filter_cons, ih]

/-- Epoch visibility of one write: on a sorted registry whose epoch-`e` level
is well-formed, writing a well-formed batch whose user-key range is disjoint
from the other epoch-`e` memtables makes `get(k, ..=e)` return exactly the
batch's value for every key `k` of the batch (tombstones included). -/
theorem writeBatch_visible (reg : Registry) (batch : List MemtableItem) (e : Nat)
    (k endK : Bytes) (v : HummockValue)
    (hs : RegSorted reg) (hwf : EmWF (regGet reg e)) (hb : BatchWF batch)
    (hend : (⟨batch, e⟩ : ImmutableMemtable).endUserKey? = some endK)
    (hd : DisjointFromEpoch ⟨batch, e⟩ (regGet reg e))
    (hv : batchGet batch k = some v) :
    mgrGet (writeBatchReg reg batch e endK) k (upTo e) = some v := by
  have hm : MtWF ⟨batch, e⟩ := ⟨hb.1, hb.2⟩
  have hlook := epochLookup_emInsert (regGet reg e) ⟨batch, e⟩ k endK v hm hend hwf hd hv
  exact mgrGet_upTo_eq _ e _ k v (regInsert_sorted reg e endK _ hs)
    (regInsert_mem_epoch reg e endK _ hs) hlook

/-- Writing a batch at epoch `e` does not change what `get(·, ..e)` (epochs
strictly below `e`) returns, for every key. -/
theorem writeBatch_preserves_below (reg : Registry) (batch : List MemtableItem)
    (e : Nat) (endK k : Bytes) :
    mgrGet (writeBatchReg reg batch e endK) k (below e) = mgrGet reg k (below e) := by
  unfold mgrGet writeBatchReg
  rw [regInsert_filter_not (fun x => (below e).contains x) reg e endK _
    (by simp [below, EpochRange.contains, EpochBound.atLeast, EpochBound.atMost])]

/-- Newer-wins across two epochs: with batches `(B1, e1)` and `(B2, e2)`,
`e1 < e2`, written into an empty registry, `get(k, ..=e2)` answers from `B2`
for every key `k` that `B2` contains. -/
theorem writeBatch_newer_wins (b1 b2 : List MemtableItem) (e1 e2 : Nat)
    (endK1 endK2 k : Bytes) (v2 : HummockValue)
    (h12 : e1 < e2) (hb2 : BatchWF b2)
    (hend2 : (⟨b2, e2⟩ : ImmutableMemtable).endUserKey? = some endK2)
    (hv2 : batchGet b2 k = some v2) :
    mgrGet (writeBatchReg (writeBatchReg [] b1 e1 endK1) b2 e2 endK2) k (upTo e2) =
      some v2 := by
  have hreg : writeBatchReg [] b1 e1 endK1 = [(e1, [(endK1, ⟨b1, e1⟩)])] := rfl
  have hget : regGet (writeBatchReg [] b1 e1 endK1) e2 = [] := by
    rw [hreg]
    unfold regGet
    rw [List.find?_cons_of_neg _ (by simp; omega)]
    rfl
  apply writeBatch_visible
  · rw [hreg]
    simp [RegSorted]
  · rw [hget]
    exact ⟨List.Pairwise.nil, by simp⟩
  · exact hb2
  · exact hend2
  · rw [hget]
    intro kv hkv
    cases hkv
  · exact hv2

/-- C4: for non-overlapping writes — (i) after `write_batch(B, e)` on a sorted
well-formed registry whose epoch-`e` memtables are range-disjoint from `B`,
`get(k, ..=e)` returns the value `B` assigns to `k` (tombstones included) for
every key of `B`; (ii) `get(k, ..e)` returns exactly what it returned before
the write, for every key; (iii) for batches `(B1, e1)`, `(B2, e2)` with
`e1 < e2` both containing `k`, `get(k, ..=e2)` returns `B2[k]` — the newest
epoch in range wins. -/
theorem C4_epoch_visibility :
    (∀ (reg : Registry) (batch : List MemtableItem) (e : Nat) (k endK : Bytes)
      (v : HummockValue),
      RegSorted reg → EmWF (regGet reg e) → BatchWF batch →
      (⟨batch, e⟩ : ImmutableMemtable).endUserKey? = some endK →
      DisjointFromEpoch ⟨batch, e⟩ (regGet reg e) →
      batchGet batch k = some v →
      mgrGet (writeBatchReg reg batch e endK) k (upTo e) = some v) ∧
    (∀ (reg : Registry) (batch : List MemtableItem) (e : Nat) (endK k : Bytes),
      mgrGet (writeBatchReg reg batch e endK) k (below e) = mgrGet reg k (below e)) ∧
    (∀ (b1 b2 : List MemtableItem) (e1 e2 : Nat) (endK1 endK2 k : Bytes)
      (v2 : HummockValue),
      e1 < e2 → BatchWF b2 →
      (⟨b2, e2⟩ : ImmutableMemtable).endUserKey? = some endK2 →
      batchGet b2 k = some v2 →
      mgrGet (writeBatchReg (writeBatchReg [] b1 e1 endK1) b2 e2 endK2) k (upTo e2) =
        some v2) :=
  ⟨fun reg batch e k endK v hs hwf hb hend hd hv =>
    writeBatch_visible reg batch e k endK v hs hwf hb hend hd hv,
   fun reg batch e endK k => writeBatch_preserves_below reg batch e endK k,
   fun b1 b2 e1 e2 endK1 endK2 k v2 h12 hb2 hend2 hv2 =>
    writeBatch_newer_wins b1 b2 e1 e2 endK1 endK2 k v2 h12 hb2 hend2 hv2⟩

/-- Concrete instantiation of `C4_epoch_visibility`: a two-key batch (with a
tombstone) at epoch 5 into an empty registry; and the S2-style two-epoch
overwrite of key `[1]`. -/
theorem C4_epoch_visibility_witness :
    mgrGet (writeBatchReg []
        [(⟨[1], 5⟩, HummockValue.put [7]), (⟨[2], 5⟩, HummockValue.del)] 5 [2])
      [2] (upTo 5) = some HummockValue.del ∧
    mgrGet (writeBatchReg []
        [(⟨[1], 5⟩, HummockValue.put [7]), (⟨[2], 5⟩, HummockValue.del)] 5 [2])
      [1] (below 5) = mgrGet [] [1] (below 5) ∧
    mgrGet (writeBatchReg (writeBatchReg [] [(⟨[1], 1⟩, HummockValue.put [7])] 1 [1])
        [(⟨[1], 2⟩, HummockValue.put [8])] 2 [1]) [1] (upTo 2) =
      some (HummockValue.put [8]) :=
  ⟨C4_epoch_visibility.1 []
      [(⟨[1], 5⟩, HummockValue.put [7]), (⟨[2], 5⟩, HummockValue.del)] 5 [2] [2]
      HummockValue.del (by simp [RegSorted])
      (⟨List.Pairwise.nil, by simp [regGet]⟩)
      (⟨by decide, by decide⟩) (by decide)
      (by intro kv hkv; simp [regGet] at hkv) (by decide),
   C4_epoch_visibility.2.1 []
      [(⟨[1], 5⟩, HummockValue.put [7]), (⟨[2], 5⟩, HummockValue.del)] 5 [2] [1],
   C4_epoch_visibility.2.2 [(⟨[1], 1⟩, HummockValue.put [7])]
      [(⟨[1], 2⟩, HummockValue.put [8])] 1 2 [1] [1] [1] (HummockValue.put [8])
      (by decide) (⟨by decide, by decide⟩) (by decide) (by decide)⟩
